import Mathlib

/-!
# Verification of the bitformat specification

A shallow embedding in Lean 4 of the core of the `bitformat` library:
the bit-vector engine (`Bits`), the typed codec layer (`Dtype`), the
declarative schema interpreter (`Format` / `FieldType`), and the schema
grammar (`format_parser.lark`).

The repository ships the grammar file, the README with worked examples,
and the user documentation; the Python/Rust implementation itself is not
part of the source tree given here, so the engine and interpreter are
modelled from the specification's own description of their semantics
(definitions carry a `Modelled from the spec:` note where this applies).
The grammar, by contrast, is transcribed directly from
`src/bitformat/format_parser.lark`.

Bits are lists of booleans, most significant bit first (MSB0), matching
the documented bit numbering.
-/

namespace Bitformat

/-! ## Bit-level preliminaries -/

/-- Big-endian (MSB-first) fixed-width encoding of a natural number into
`n` bits, truncating modulo `2 ^ n`. -/
def natToBits : Nat → Nat → List Bool
  | 0, _ => []
  | n + 1, v => natToBits n (v / 2) ++ [decide (v % 2 = 1)]

/-- Read a list of bits, MSB first, as a natural number. -/
def bitsToNat (l : List Bool) : Nat :=
  l.foldl (fun acc b => 2 * acc + (if b then 1 else 0)) 0

theorem natToBits_length (n v : Nat) : (natToBits n v).length = n := by
  induction n generalizing v with
  | zero => rfl
  | succ n ih => simp [natToBits, ih]

theorem bitsToNat_append (l m : List Bool) :
    bitsToNat (l ++ m) = bitsToNat l * 2 ^ m.length + bitsToNat m := by
  induction m using List.reverseRecOn generalizing l with
  | nil => simp [bitsToNat]
  | append_singleton m b ih =>
    rw [← List.append_assoc]
    simp only [bitsToNat, List.foldl_append, List.foldl_cons, List.foldl_nil,
      List.length_append, List.length_cons, List.length_nil] at *
    rw [ih]
    rw [pow_succ]
    ring

theorem bitsToNat_natToBits (n v : Nat) : bitsToNat (natToBits n v) = v % 2 ^ n := by
  induction n generalizing v with
  | zero => simp [natToBits, bitsToNat, Nat.mod_one]
  | succ n ih =>
    rw [natToBits, bitsToNat_append]
    simp only [List.length_cons, List.length_nil, pow_one, ih]
    have h2 : bitsToNat [decide (v % 2 = 1)] = v % 2 := by
      rcases Nat.mod_two_eq_zero_or_one v with h | h <;> simp [bitsToNat, h]
    rw [h2]
    have h3 : v % (2 * 2 ^ n) / 2 = v / 2 % 2 ^ n := Nat.mod_mul_right_div_self v 2 (2 ^ n)
    have h4 : v % (2 * 2 ^ n) % 2 = v % 2 := Nat.mod_mod_of_dvd v ⟨2 ^ n, rfl⟩
    have hpow : (2 : Nat) ^ (n + 1) = 2 * 2 ^ n := by rw [pow_succ]; ring
    rw [hpow]
    norm_num
    omega

theorem bitsToNat_natToBits_of_lt {n v : Nat} (h : v < 2 ^ n) :
    bitsToNat (natToBits n v) = v := by
  rw [bitsToNat_natToBits, Nat.mod_eq_of_lt h]

theorem bitsToNat_lt (l : List Bool) : bitsToNat l < 2 ^ l.length := by
  induction l using List.reverseRecOn with
  | nil => simp [bitsToNat]
  | append_singleton m b ih =>
    rw [bitsToNat_append]
    simp only [List.length_append, List.length_singleton]
    have hb : bitsToNat [b] ≤ 1 := by cases b <;> simp [bitsToNat]
    have := ih
    rw [pow_succ]
    omega

/-- Split a bit list into consecutive bytes (groups of 8 bits); a final
group shorter than 8 bits is kept as-is. -/
def chunks8 : List Bool → List (List Bool)
  | a :: b :: c :: d :: e :: f :: g :: h :: rest =>
    [a, b, c, d, e, f, g, h] :: chunks8 rest
  | [] => []
  | l => [l]

theorem chunks8_block (a b c d e f g h : Bool) (rest : List Bool) :
    chunks8 (a :: b :: c :: d :: e :: f :: g :: h :: rest) =
      [a, b, c, d, e, f, g, h] :: chunks8 rest := rfl

theorem chunks8_append8 {blk : List Bool} (hb : blk.length = 8) (rest : List Bool) :
    chunks8 (blk ++ rest) = blk :: chunks8 rest := by
  match blk, hb with
  | [a, b, c, d, e, f, g, h], _ => rfl

theorem chunks8_join_of_len8 (cs : List (List Bool))
    (h : ∀ c ∈ cs, c.length = 8) : chunks8 cs.flatten = cs := by
  induction cs with
  | nil => rfl
  | cons c cs ih =>
    rw [List.flatten_cons, chunks8_append8 (h c (by simp)) cs.flatten]
    rw [ih fun x hx => h x (by simp [hx])]

theorem chunks8_short {l : List Bool} (h0 : l ≠ []) (h8 : l.length < 8) :
    chunks8 l = [l] := by
  rcases l with _ | ⟨a, _ | ⟨b, _ | ⟨c, _ | ⟨d, _ | ⟨e, _ | ⟨f, _ | ⟨g, _ | ⟨x, r⟩⟩⟩⟩⟩⟩⟩⟩ <;>
    first
      | exact absurd rfl h0
      | rfl
      | (exfalso; simp at h8; omega)

theorem chunks8_flatten (l : List Bool) : (chunks8 l).flatten = l := by
  induction l using chunks8.induct with
  | case1 a b c d e f g h rest ih => simp [chunks8_block, ih]
  | case2 => rfl
  | case3 l h1 h2 =>
    have hlt : l.length < 8 := by
      rcases l with _ | ⟨a, _ | ⟨b, _ | ⟨c, _ | ⟨d, _ | ⟨e, _ | ⟨f, _ | ⟨g, _ | ⟨x, r⟩⟩⟩⟩⟩⟩⟩⟩ <;>
        first
          | (exfalso; exact h1 _ _ _ _ _ _ _ _ _ rfl)
          | simp
    rw [chunks8_short h2 hlt]
    simp

theorem chunks8_len8 {l : List Bool} (h : l.length % 8 = 0) :
    ∀ c ∈ chunks8 l, c.length = 8 := by
  induction l using chunks8.induct with
  | case1 a b c d e f g hd rest ih =>
    intro x hx
    rw [chunks8_block] at hx
    rcases List.mem_cons.mp hx with hx | hx
    · simp [hx]
    · exact ih (by simp at h ⊢; omega) x hx
  | case2 => intro x hx; simp [chunks8] at hx
  | case3 l h1 h2 =>
    intro x hx
    exfalso
    rcases l with _ | ⟨a, _ | ⟨b, _ | ⟨c, _ | ⟨d, _ | ⟨e, _ | ⟨f, _ | ⟨g, _ | ⟨y, r⟩⟩⟩⟩⟩⟩⟩⟩ <;>
      first
        | exact h2 rfl
        | exact h1 _ _ _ _ _ _ _ _ _ rfl
        | simp at h

/-- Reverse the byte order of a bit string: the sequence of 8-bit groups
is reversed while bits within each group keep their order.  Models the
byte-swapping used for little-endian dtype encodings. -/
def byteRev (l : List Bool) : List Bool :=
  (chunks8 l).reverse.flatten

theorem byteRev_length (l : List Bool) :
    (byteRev l).length = l.length := by
  unfold byteRev
  conv_rhs => rw [← chunks8_flatten l]
  simp [List.length_flatten, List.map_reverse, List.sum_reverse]

theorem byteRev_byteRev {l : List Bool} (h : l.length % 8 = 0) :
    byteRev (byteRev l) = l := by
  unfold byteRev
  have hmem : ∀ c ∈ (chunks8 l).reverse, c.length = 8 := by
    intro c hc
    exact chunks8_len8 h c (List.mem_reverse.mp hc)
  rw [chunks8_join_of_len8 _ hmem, List.reverse_reverse, chunks8_flatten]

/-! ## Dtype codec

Modelled from the spec: the implementation of the `Dtype` class is not
part of the given source tree (only its documentation and the grammar
are), so the per-kind pack/unpack semantics below are transcribed from
§4.E of the specification and the documented examples.  Bits are MSB0;
float values are represented by their IEEE-754 bit patterns, so value
equality for floats is bit-identity (which subsumes the NaN-payload
caveat).  The `ne` (native) modifier is modelled as a fixed byte order;
round-trips are independent of which order the host uses. -/

/-- Endianness attribute of integer and float dtypes. -/
inductive Endianness
  | be | le | ne | none
deriving DecidableEq

/-- The closed taxonomy of dtype kinds. -/
inductive DtypeKind
  | uint | int | float | bool | bytes | hex | bin | oct | bits | pad
deriving DecidableEq

/-- A single (scalar) dtype: kind, bit size, endianness. -/
structure DtypeSingle where
  kind : DtypeKind
  size : Nat
  endianness : Endianness
deriving DecidableEq

/-- Dtype shapes: single, array of a single dtype, or a tuple
(represented as a cons-chain of member dtypes). -/
inductive Dtype
  | single (s : DtypeSingle)
  | array (items : Nat) (s : DtypeSingle)
  | tupleNil
  | tupleCons (head : Dtype) (tail : Dtype)
deriving DecidableEq

/-- Typed values handled by the codec.  Sequences (array and tuple
values) are cons-chains. -/
inductive Value
  | vInt (i : Int)
  | vBool (b : Bool)
  | vBytes (ds : List Nat)
  | vHex (ds : List Nat)
  | vOct (ds : List Nat)
  | vBin (bs : List Bool)
  | vBits (bs : List Bool)
  | vFloat (pattern : List Bool)
  | vPad
  | vNil
  | vCons (head tail : Value)
deriving DecidableEq

/-- Validity of a single dtype (`BadDtype` conditions): kind-specific
size constraints, and the rule that an endianness modifier other than
`NONE` requires a byte-multiple size (and only integer/float kinds may
carry one at all). -/
def validSingle (s : DtypeSingle) : Bool :=
  (match s.kind with
   | .uint => true
   | .int => decide (1 ≤ s.size)
   | .float => decide (s.size = 16 ∨ s.size = 32 ∨ s.size = 64)
   | .bool => decide (s.size = 1)
   | .bytes => decide (s.size % 8 = 0)
   | .hex => decide (s.size % 4 = 0)
   | .oct => decide (s.size % 3 = 0)
   | .bin | .bits | .pad => true) &&
  (match s.kind with
   | .uint | .int | .float =>
     decide (s.endianness = .none) || decide (s.size % 8 = 0)
   | _ => decide (s.endianness = .none))

/-- Error taxonomy of the library (spec §7). -/
inductive Err
  | badGrammar | badDtype | outOfRange | lengthMismatch | alignment
  | shortInput | constMismatch | unresolvedName | arithmetic | schemaError
deriving DecidableEq

/-- Modelled from the spec: constructing a single dtype validates the
kind/size/endianness combination and fails with `BadDtype` otherwise. -/
def mkDtypeSingle (k : DtypeKind) (e : Endianness) (n : Nat) :
    Except Err DtypeSingle :=
  if validSingle ⟨k, n, e⟩ then .ok ⟨k, n, e⟩ else .error .badDtype

/-- Is a value valid for a single dtype (pack-side domain check)? -/
def validValueSingle (s : DtypeSingle) (v : Value) : Bool :=
  match s.kind, v with
  | .uint, .vInt i => decide (0 ≤ i ∧ i < (2 ^ s.size : Int))
  | .int, .vInt i =>
    decide (-(2 ^ (s.size - 1) : Int) ≤ i ∧ i < (2 ^ (s.size - 1) : Int))
  | .bool, .vBool _ => true
  | .bytes, .vBytes ds =>
    decide (ds.length * 8 = s.size) && ds.all (fun d => decide (d < 256))
  | .hex, .vHex ds =>
    decide (ds.length * 4 = s.size) && ds.all (fun d => decide (d < 16))
  | .oct, .vOct ds =>
    decide (ds.length * 3 = s.size) && ds.all (fun d => decide (d < 8))
  | .bin, .vBin bs => decide (bs.length = s.size)
  | .bits, .vBits bs => decide (bs.length = s.size)
  | .float, .vFloat p => decide (p.length = s.size)
  | .pad, .vPad => true
  | _, _ => false

/-- Apply the byte order of an endianness modifier: `le` reverses byte
order, the others leave the MSB-first encoding as-is. -/
def endianFix (e : Endianness) (l : List Bool) : List Bool :=
  match e with
  | .le => byteRev l
  | _ => l

/-- Pack a list of digit values, `w` bits per digit, MSB first. -/
def packDigits (w : Nat) (ds : List Nat) : List Bool :=
  (ds.map (natToBits w)).flatten

/-- Unpack `k` digits of `w` bits each from the front of a bit list. -/
def unpackDigits (w : Nat) : Nat → List Bool → List Nat
  | 0, _ => []
  | k + 1, bits => bitsToNat (bits.take w) :: unpackDigits w k (bits.drop w)

/-- The bit encoding of a valid value at a single dtype (spec §4.E
per-kind table). -/
def packSingleBody (s : DtypeSingle) (v : Value) : List Bool :=
  match s.kind, v with
  | .uint, .vInt i => endianFix s.endianness (natToBits s.size i.toNat)
  | .int, .vInt i =>
    endianFix s.endianness (natToBits s.size (i % (2 ^ s.size : Int)).toNat)
  | .float, .vFloat p => endianFix s.endianness p
  | .bool, .vBool b => [b]
  | .bytes, .vBytes ds => packDigits 8 ds
  | .hex, .vHex ds => packDigits 4 ds
  | .oct, .vOct ds => packDigits 3 ds
  | .bin, .vBin bs => bs
  | .bits, .vBits bs => bs
  | .pad, _ => List.replicate s.size false
  | _, _ => []

/-- `pack` for a single dtype: range/domain errors yield `none`. -/
def packSingle (s : DtypeSingle) (v : Value) : Option (List Bool) :=
  if validSingle s && validValueSingle s v then some (packSingleBody s v)
  else Option.none

/-- `unpack` for a single dtype: expects an exact-length input. -/
def unpackSingle (s : DtypeSingle) (bits : List Bool) : Option Value :=
  if bits.length = s.size then
    match s.kind with
    | .uint => some (.vInt (bitsToNat (endianFix s.endianness bits)))
    | .int =>
      let u : Nat := bitsToNat (endianFix s.endianness bits)
      some (.vInt (if u < 2 ^ (s.size - 1) then (u : Int)
                   else (u : Int) - 2 ^ s.size))
    | .float => some (.vFloat (endianFix s.endianness bits))
    | .bool => some (.vBool bits.headI)
    | .bytes => some (.vBytes (unpackDigits 8 (s.size / 8) bits))
    | .hex => some (.vHex (unpackDigits 4 (s.size / 4) bits))
    | .oct => some (.vOct (unpackDigits 3 (s.size / 3) bits))
    | .bin => some (.vBin bits)
    | .bits => some (.vBits bits)
    | .pad => some .vPad
  else Option.none

/-- Total bit size of a dtype. -/
def dtypeSize : Dtype → Nat
  | .single s => s.size
  | .array n s => n * s.size
  | .tupleNil => 0
  | .tupleCons d rest => dtypeSize d + dtypeSize rest

/-- Pack an array value (a cons-chain of `n` member values). -/
def packArray (s : DtypeSingle) : Nat → Value → Option (List Bool)
  | 0, .vNil => some []
  | n + 1, .vCons v vs => do
    let b ← packSingle s v
    let bs ← packArray s n vs
    pure (b ++ bs)
  | _, _ => Option.none

/-- Unpack `n` array members of a fixed single dtype. -/
def unpackArray (s : DtypeSingle) : Nat → List Bool → Option Value
  | 0, _ => some .vNil
  | n + 1, bits => do
    let v ← unpackSingle s (bits.take s.size)
    let vs ← unpackArray s n (bits.drop s.size)
    pure (.vCons v vs)

/-- Validity of a dtype of any shape. -/
def validDtype : Dtype → Bool
  | .single s => validSingle s
  | .array _ s => validSingle s
  | .tupleNil => true
  | .tupleCons d rest => validDtype d && validDtype rest

/-- Validity of a value for a dtype of any shape. -/
def validValue : Dtype → Value → Bool
  | .single s, v => validValueSingle s v
  | .array n s, v => validArrayValue s n v
  | .tupleNil, .vNil => true
  | .tupleCons d rest, .vCons v vs => validValue d v && validValue rest vs
  | _, _ => false
where
  /-- Validity of an array value chain. -/
  validArrayValue (s : DtypeSingle) : Nat → Value → Bool
    | 0, .vNil => true
    | n + 1, .vCons v vs => validValueSingle s v && validArrayValue s n vs
    | _, _ => false

/-- `Dtype.pack` over all three shapes: concatenation of member
encodings for arrays and tuples. -/
def packDtype : Dtype → Value → Option (List Bool)
  | .single s, v => packSingle s v
  | .array n s, v => packArray s n v
  | .tupleNil, .vNil => some []
  | .tupleCons d rest, .vCons v vs => do
    let b ← packDtype d v
    let bs ← packDtype rest vs
    pure (b ++ bs)
  | _, _ => Option.none

/-- `Dtype.unpack` over all three shapes: exact-length input, members
split by their fixed bit sizes. -/
def unpackDtype : Dtype → List Bool → Option Value
  | .single s, bits => unpackSingle s bits
  | .array n s, bits =>
    if bits.length = n * s.size then unpackArray s n bits else Option.none
  | .tupleNil, bits => if bits = [] then some .vNil else Option.none
  | .tupleCons d rest, bits => do
    let v ← unpackDtype d (bits.take (dtypeSize d))
    let vs ← unpackDtype rest (bits.drop (dtypeSize d))
    pure (.vCons v vs)

theorem packDigits_length (w : Nat) (ds : List Nat) :
    (packDigits w ds).length = ds.length * w := by
  induction ds with
  | nil => simp [packDigits]
  | cons d ds ih =>
    simp only [packDigits, List.map_cons, List.flatten_cons, List.length_append,
      List.length_cons, natToBits_length] at ih ⊢
    rw [ih, Nat.succ_mul]
    omega

theorem unpackDigits_packDigits {w : Nat} {ds : List Nat}
    (h : ∀ d ∈ ds, d < 2 ^ w) :
    unpackDigits w ds.length (packDigits w ds) = ds := by
  induction ds with
  | nil => rfl
  | cons d ds ih =>
    have hlen : (natToBits w d).length = w := natToBits_length w d
    have hp : packDigits w (d :: ds) = natToBits w d ++ packDigits w ds := by
      simp [packDigits]
    have h1 := List.take_left (natToBits w d) (packDigits w ds)
    rw [hlen] at h1
    have h2 := List.drop_left (natToBits w d) (packDigits w ds)
    rw [hlen] at h2
    rw [List.length_cons, unpackDigits, hp, h1, h2,
      bitsToNat_natToBits_of_lt (h d (by simp)),
      ih fun x hx => h x (by simp [hx])]

theorem endianFix_length (e : Endianness) (l : List Bool) :
    (endianFix e l).length = l.length := by
  cases e <;> simp [endianFix, byteRev_length]

theorem endianFix_invol {e : Endianness} {l : List Bool}
    (h : e = .le → l.length % 8 = 0) :
    endianFix e (endianFix e l) = l := by
  cases e <;> simp [endianFix]
  exact byteRev_byteRev (h rfl)

theorem validSingle_le {s : DtypeSingle} (hs : validSingle s = true)
    (he : s.endianness = .le) : s.size % 8 = 0 := by
  unfold validSingle at hs
  rw [Bool.and_eq_true] at hs
  obtain ⟨h1, h2⟩ := hs
  cases hk : s.kind <;> simp [hk, he] at h2 <;> assumption

theorem packSingleBody_length {s : DtypeSingle} {v : Value}
    (hs : validSingle s = true) (hv : validValueSingle s v = true) :
    (packSingleBody s v).length = s.size := by
  cases s with
  | mk k n e =>
    cases k <;> cases v <;>
      simp_all [validSingle, validValueSingle, packSingleBody, endianFix_length,
        natToBits_length, packDigits_length]

theorem packSingle_length {s : DtypeSingle} {v : Value} {bs : List Bool}
    (h : packSingle s v = some bs) : bs.length = s.size := by
  unfold packSingle at h
  split at h
  · cases h
    rename_i hvv
    rw [Bool.and_eq_true] at hvv
    exact packSingleBody_length hvv.1 hvv.2
  · cases h

theorem validSingle_int_pos {s : DtypeSingle} (hs : validSingle s = true)
    (hk : s.kind = .int) : 1 ≤ s.size := by
  unfold validSingle at hs
  rw [Bool.and_eq_true] at hs
  have h1 := hs.1
  rw [hk] at h1
  simpa using h1

theorem validSingle_bool_size {s : DtypeSingle} (hs : validSingle s = true)
    (hk : s.kind = .bool) : s.size = 1 := by
  unfold validSingle at hs
  rw [Bool.and_eq_true] at hs
  have h1 := hs.1
  rw [hk] at h1
  simpa using h1

theorem packSingle_unpackSingle {s : DtypeSingle} {v : Value} {bs : List Bool}
    (h : packSingle s v = some bs) : unpackSingle s bs = some v := by
  have hlen := packSingle_length h
  unfold packSingle at h
  split at h
  case isFalse => cases h
  case isTrue hvv =>
  cases h
  rw [Bool.and_eq_true] at hvv
  obtain ⟨hs, hv⟩ := hvv
  obtain ⟨k, n, e⟩ := s
  have hinv : ∀ l : List Bool, l.length = n → endianFix e (endianFix e l) = l := by
    intro l hl
    apply endianFix_invol
    intro hle
    rw [hl]
    exact validSingle_le hs hle
  cases k
  case uint =>
    cases v <;> simp [validValueSingle] at hv
    case vInt i =>
      obtain ⟨h0, hlt⟩ := hv
      have hlt' : i.toNat < 2 ^ n := by
        have h1 : ((i.toNat : Int)) = i := Int.toNat_of_nonneg h0
        have h2 : ((2 ^ n : Nat) : Int) = (2 : Int) ^ n := by push_cast; ring
        rw [← Nat.cast_lt (α := Int), h1, h2]
        exact hlt
      have hbl : (endianFix e (natToBits n i.toNat)).length = n := by
        rw [endianFix_length, natToBits_length]
      simp only [unpackSingle, packSingleBody, hbl, if_pos]
      rw [hinv _ (natToBits_length n i.toNat), bitsToNat_natToBits_of_lt hlt',
        Int.toNat_of_nonneg h0]
  case int =>
    cases v <;> simp [validValueSingle] at hv
    case vInt i =>
      obtain ⟨hlo, hhi⟩ := hv
      have hn : 1 ≤ n := validSingle_int_pos hs rfl
      have hA0 : (0 : Int) < 2 ^ (n - 1) := by positivity
      have hNA : (2 : Int) ^ n = 2 * 2 ^ (n - 1) := by
        conv_lhs => rw [show n = (n - 1) + 1 by omega]
        rw [pow_succ]; ring
      have hN0 : (0 : Int) < 2 ^ n := by positivity
      have hr0 : 0 ≤ i % (2 : Int) ^ n := Int.emod_nonneg i (ne_of_gt hN0)
      have hrlt : i % (2 : Int) ^ n < 2 ^ n := Int.emod_lt_of_pos i hN0
      have hrEq : i % (2 : Int) ^ n = i ∨ i % (2 : Int) ^ n = i + 2 ^ n := by
        by_cases h0 : 0 ≤ i
        · left
          exact Int.emod_eq_of_lt h0 (by omega)
        · right
          have h1 : (i + 2 ^ n * 1) % (2 : Int) ^ n = i % (2 : Int) ^ n :=
            Int.add_mul_emod_self_left i (2 ^ n) 1
          have h2 : (i + (2 : Int) ^ n) % (2 : Int) ^ n = i + 2 ^ n :=
            Int.emod_eq_of_lt (by omega) (by omega)
          rw [mul_one] at h1
          omega
      have hcast : ((i % (2 : Int) ^ n).toNat : Int) = i % (2 : Int) ^ n :=
        Int.toNat_of_nonneg hr0
      have hAc : ((2 ^ (n - 1) : Nat) : Int) = (2 : Int) ^ (n - 1) := by
        push_cast; ring
      have hNc : ((2 ^ n : Nat) : Int) = (2 : Int) ^ n := by push_cast; ring
      have hult : (i % (2 : Int) ^ n).toNat < 2 ^ n := by
        rw [← Nat.cast_lt (α := Int), hcast, hNc]
        exact hrlt
      have hbl : (endianFix e (natToBits n (i % (2 : Int) ^ n).toNat)).length = n := by
        rw [endianFix_length, natToBits_length]
      simp only [unpackSingle, packSingleBody, hbl, if_pos]
      rw [hinv _ (natToBits_length n _), bitsToNat_natToBits_of_lt hult]
      have hiff : ((i % (2 : Int) ^ n).toNat < 2 ^ (n - 1)) ↔
          (i % (2 : Int) ^ n < (2 : Int) ^ (n - 1)) := by
        rw [← Nat.cast_lt (α := Int), hcast, hAc]
      rcases hrEq with hre | hre
      · have hbranch : (i % (2 : Int) ^ n).toNat < 2 ^ (n - 1) := by
          rw [hiff, hre]; omega
        rw [if_pos hbranch, hcast, hre]
      · have hbranch : ¬ (i % (2 : Int) ^ n).toNat < 2 ^ (n - 1) := by
          rw [hiff, hre]; omega
        rw [if_neg hbranch, hcast, hre]
        have harith : i + (2 : Int) ^ n - 2 ^ n = i := by ring
        rw [harith]
  case float =>
    cases v <;> simp [validValueSingle] at hv
    case vFloat p =>
      have hbl : (endianFix e p).length = n := by rw [endianFix_length, hv]
      simp only [unpackSingle, packSingleBody, hbl, if_pos]
      rw [hinv _ hv]
  case bool =>
    cases v <;> simp [validValueSingle] at hv
    case vBool b =>
      have hn : n = 1 := validSingle_bool_size hs rfl
      subst hn
      simp [unpackSingle, packSingleBody, List.headI]
  case bytes =>
    cases v <;> simp [validValueSingle] at hv
    case vBytes ds =>
      obtain ⟨hl, hall⟩ := hv
      have hbl : (packDigits 8 ds).length = n := by rw [packDigits_length, hl]
      have hdiv : n / 8 = ds.length := by omega
      simp only [unpackSingle, packSingleBody, hbl, if_pos, hdiv]
      rw [unpackDigits_packDigits fun d hd => by
        have := hall d hd; norm_num at this ⊢; omega]
  case hex =>
    cases v <;> simp [validValueSingle] at hv
    case vHex ds =>
      obtain ⟨hl, hall⟩ := hv
      have hbl : (packDigits 4 ds).length = n := by rw [packDigits_length, hl]
      have hdiv : n / 4 = ds.length := by omega
      simp only [unpackSingle, packSingleBody, hbl, if_pos, hdiv]
      rw [unpackDigits_packDigits fun d hd => by
        have := hall d hd; norm_num at this ⊢; omega]
  case oct =>
    cases v <;> simp [validValueSingle] at hv
    case vOct ds =>
      obtain ⟨hl, hall⟩ := hv
      have hbl : (packDigits 3 ds).length = n := by rw [packDigits_length, hl]
      have hdiv : n / 3 = ds.length := by omega
      simp only [unpackSingle, packSingleBody, hbl, if_pos, hdiv]
      rw [unpackDigits_packDigits fun d hd => by
        have := hall d hd; norm_num at this ⊢; omega]
  case bin =>
    cases v <;> simp [validValueSingle] at hv
    case vBin l => simp [unpackSingle, packSingleBody, hv]
  case bits =>
    cases v <;> simp [validValueSingle] at hv
    case vBits l => simp [unpackSingle, packSingleBody, hv]
  case pad =>
    cases v <;> simp [validValueSingle] at hv
    simp [unpackSingle, packSingleBody]

theorem packSingle_eq_some {s : DtypeSingle} {v : Value}
    (hs : validSingle s = true) (hv : validValueSingle s v = true) :
    packSingle s v = some (packSingleBody s v) := by
  simp [packSingle, hs, hv]

theorem packArray_length {s : DtypeSingle} {v : Value} {bs : List Bool} :
    ∀ {n : Nat}, packArray s n v = some bs → bs.length = n * s.size := by
  intro n
  induction n generalizing v bs with
  | zero =>
    intro h
    cases v <;> simp [packArray] at h
    simp [← h]
  | succ n ih =>
    intro h
    cases v <;> simp [packArray, Option.bind_eq_some] at h
    obtain ⟨b, hb, bs', hbs', hcat⟩ := h
    rw [← hcat]
    simp [packSingle_length hb, ih hbs', Nat.succ_mul]
    omega

theorem packArray_unpackArray {s : DtypeSingle} :
    ∀ {n : Nat} {v : Value} {bs : List Bool},
      packArray s n v = some bs → unpackArray s n bs = some v := by
  intro n
  induction n with
  | zero =>
    intro v bs h
    cases v <;> simp [packArray] at h
    simp [← h, unpackArray]
  | succ n ih =>
    intro v bs h
    cases v <;> simp [packArray, Option.bind_eq_some] at h
    obtain ⟨b, hb, bs', hbs', hcat⟩ := h
    have hblen : b.length = s.size := packSingle_length hb
    have h1 := List.take_left b bs'
    have h2 := List.drop_left b bs'
    rw [hblen] at h1 h2
    rw [← hcat]
    simp only [unpackArray, h1, h2, packSingle_unpackSingle hb, ih hbs',
      Option.bind_eq_bind, Option.some_bind]
    rfl

theorem packDtype_length {d : Dtype} :
    ∀ {v : Value} {bs : List Bool},
      packDtype d v = some bs → bs.length = dtypeSize d := by
  induction d with
  | single s => exact fun h => packSingle_length h
  | array n s => exact fun h => packArray_length h
  | tupleNil =>
    intro v bs h
    cases v <;> simp [packDtype] at h
    simp [← h, dtypeSize]
  | tupleCons d rest ihd ihr =>
    intro v bs h
    cases v <;> simp [packDtype, Option.bind_eq_some] at h
    obtain ⟨b, hb, bs', hbs', hcat⟩ := h
    rw [← hcat]
    simp [ihd hb, ihr hbs', dtypeSize]

theorem packDtype_unpackDtype {d : Dtype} :
    ∀ {v : Value} {bs : List Bool},
      packDtype d v = some bs → unpackDtype d bs = some v := by
  induction d with
  | single s => exact fun h => packSingle_unpackSingle h
  | array n s =>
    intro v bs h
    have hl : bs.length = n * s.size := packArray_length h
    simp [unpackDtype, hl, packArray_unpackArray h]
  | tupleNil =>
    intro v bs h
    cases v <;> simp [packDtype] at h
    simp [← h, unpackDtype]
  | tupleCons d rest ihd ihr =>
    intro v bs h
    cases v <;> simp [packDtype, Option.bind_eq_some] at h
    obtain ⟨b, hb, bs', hbs', hcat⟩ := h
    have hblen : b.length = dtypeSize d := packDtype_length hb
    have h1 := List.take_left b bs'
    have h2 := List.drop_left b bs'
    rw [hblen] at h1 h2
    rw [← hcat]
    simp only [unpackDtype, h1, h2, ihd hb, ihr hbs',
      Option.bind_eq_bind, Option.some_bind]
    rfl

theorem packArray_isSome {s : DtypeSingle} (hs : validSingle s = true) :
    ∀ {n : Nat} {v : Value},
      validValue.validArrayValue s n v = true → (packArray s n v).isSome := by
  intro n
  induction n with
  | zero =>
    intro v hv
    cases v <;> simp [validValue.validArrayValue] at hv <;> simp [packArray]
  | succ n ih =>
    intro v hv
    cases v <;> simp [validValue.validArrayValue] at hv
    obtain ⟨hv1, hv2⟩ := hv
    have h1 := packSingle_eq_some hs hv1
    have h2 := ih hv2
    rw [Option.isSome_iff_exists] at h2
    obtain ⟨bs', hbs'⟩ := h2
    simp [packArray, h1, hbs']

theorem packDtype_isSome {d : Dtype} :
    ∀ {v : Value}, validDtype d = true → validValue d v = true →
      (packDtype d v).isSome := by
  induction d with
  | single s =>
    intro v hd hv
    simp [packDtype, packSingle_eq_some hd hv]
  | array n s =>
    intro v hd hv
    exact packArray_isSome hd hv
  | tupleNil =>
    intro v hd hv
    cases v <;> simp [validValue] at hv
    simp [packDtype]
  | tupleCons d rest ihd ihr =>
    intro v hd hv
    simp [validDtype] at hd
    cases v <;> simp [validValue] at hv
    have h1 := ihd hd.1 hv.1
    have h2 := ihr hd.2 hv.2
    rw [Option.isSome_iff_exists] at h1 h2
    obtain ⟨b, hb⟩ := h1
    obtain ⟨bs', hbs'⟩ := h2
    simp [packDtype, hb, hbs']

/-- C1: for every dtype `d` (any kind, size and endianness, including
array and tuple shapes) and every value `v` valid for `d`, packing `v`
at `d` succeeds and unpacking the packed bits returns exactly `v`.
Floats are modelled by their IEEE bit patterns, so value equality is
bit-identity, which subsumes the NaN-payload caveat of the claim. -/
theorem dtype_pack_unpack_roundtrip (d : Dtype) (v : Value)
    (hd : validDtype d = true) (hv : validValue d v = true) :
    (packDtype d v).bind (unpackDtype d) = some v := by
  have h := packDtype_isSome hd hv
  rw [Option.isSome_iff_exists] at h
  obtain ⟨bs, hbs⟩ := h
  rw [hbs, Option.some_bind]
  exact packDtype_unpackDtype hbs

/-- Witness for C1 at the spec's own S2 example: `i7` with value `-31`
(7-bit two's complement) round-trips. -/
theorem dtype_pack_unpack_roundtrip_witness :
    (packDtype (.single ⟨.int, 7, .none⟩) (.vInt (-31))).bind
      (unpackDtype (.single ⟨.int, 7, .none⟩)) = some (.vInt (-31)) :=
  dtype_pack_unpack_roundtrip _ _ (by decide) (by decide)

/-- C5: a dtype whose endianness modifier is not `NONE` and whose bit
size is not a multiple of 8 fails to construct with `BadDtype`; and a
`UINT` dtype with `LE` endianness can only be constructed when its size
is a multiple of 8. -/
theorem mkDtypeSingle_endianness_rules :
    (∀ (k : DtypeKind) (e : Endianness) (n : Nat),
      e ≠ .none → n % 8 ≠ 0 → mkDtypeSingle k e n = .error .badDtype) ∧
    (∀ (n : Nat) (s : DtypeSingle),
      mkDtypeSingle .uint .le n = .ok s → n % 8 = 0) := by
  constructor
  · intro k e n he hn
    have hval : validSingle ⟨k, n, e⟩ = false := by
      unfold validSingle
      cases k <;> cases e <;> simp_all
    simp [mkDtypeSingle, hval]
  · intro n s h
    unfold mkDtypeSingle at h
    split at h
    · rename_i hval
      unfold validSingle at hval
      simpa using hval
    · cases h

/-- Witness for C5: `u12` with `LE` endianness (12 is not a multiple of
8) is rejected with `BadDtype`. -/
theorem mkDtypeSingle_endianness_rules_witness :
    mkDtypeSingle .uint .le 12 = .error .badDtype :=
  mkDtypeSingle_endianness_rules.1 .uint .le 12 (by decide) (by decide)

/-! ## Bit sequence read operations and search

Modelled from the spec: the `Bits` engine implementation is not under
the given source tree; `slice`, `to_bytes` and `find` follow §4.A of
the specification and the README examples. -/

/-- `slice(a, b)`: the logical window from bit `a` (inclusive) to bit
`b` (exclusive). -/
def slice (b : List Bool) (i j : Nat) : List Bool := (b.drop i).take (j - i)

/-- Does `pat` occur at index `i` of `b`, with the whole match inside
the window? -/
def matchesAt (b pat : List Bool) (i : Nat) : Bool :=
  decide (i + pat.length ≤ b.length) &&
    decide (slice b i (i + pat.length) = pat)

/-- The byte-alignment side condition of `find`. -/
def alignOK (aligned : Bool) (i : Nat) : Bool := !aligned || decide (i % 8 = 0)

/-- Linear scan of candidate indices for `find`, fuelled by the number
of remaining candidates. -/
def findAux (b pat : List Bool) (aligned : Bool) : Nat → Nat → Option Nat
  | 0, _ => Option.none
  | fuel + 1, i =>
    if i + pat.length ≤ b.length then
      if alignOK aligned i && matchesAt b pat i then some i
      else findAux b pat aligned fuel (i + 1)
    else Option.none

/-- `find(pat, start, byte_aligned)`: lowest index `i ≥ start` at which
`pat` occurs (a multiple of 8 when `byte_aligned`), absent on failure. -/
def find (b pat : List Bool) (start : Nat) (aligned : Bool) : Option Nat :=
  findAux b pat aligned (b.length + 1 - start) start

theorem findAux_some {b pat : List Bool} {aligned : Bool} :
    ∀ {fuel i r : Nat}, findAux b pat aligned fuel i = some r →
      i ≤ r ∧ alignOK aligned r = true ∧ matchesAt b pat r = true ∧
        ∀ j, i ≤ j → j < r → alignOK aligned j = true →
          matchesAt b pat j = false := by
  intro fuel
  induction fuel with
  | zero => intro i r h; cases h
  | succ fuel ih =>
    intro i r h
    unfold findAux at h
    split at h
    · split at h
      · cases h
        rename_i hcond
        rw [Bool.and_eq_true] at hcond
        exact ⟨le_refl _, hcond.1, hcond.2, fun j hj1 hj2 _ => absurd hj1 (by omega)⟩
      · rename_i hcond
        obtain ⟨h1, h2, h3, h4⟩ := ih h
        refine ⟨by omega, h2, h3, fun j hj1 hj2 hj3 => ?_⟩
        rcases Nat.eq_or_lt_of_le hj1 with hj | hj
        · rw [← hj] at hj3 ⊢
          cases hm : matchesAt b pat i
          · rfl
          · exfalso; rw [hj3, hm] at hcond; simp at hcond
        · exact h4 j (by omega) hj2 hj3
    · cases h

theorem findAux_none {b pat : List Bool} {aligned : Bool} :
    ∀ {fuel i : Nat}, b.length + 1 ≤ fuel + i →
      findAux b pat aligned fuel i = Option.none →
      ∀ j, i ≤ j → alignOK aligned j = true → matchesAt b pat j = false := by
  intro fuel
  induction fuel with
  | zero =>
    intro i hfuel _ j hj _
    unfold matchesAt
    have : ¬ (j + pat.length ≤ b.length) := by omega
    simp [this]
  | succ fuel ih =>
    intro i hfuel h j hj hal
    unfold findAux at h
    split at h
    · split at h
      · cases h
      · rename_i hcond
        rcases Nat.eq_or_lt_of_le hj with hj' | hj'
        · rw [← hj'] at hal ⊢
          cases hm : matchesAt b pat i
          · rfl
          · exfalso; rw [hal, hm] at hcond; simp at hcond
        · exact ih (by omega) h j (by omega) hal
    · rename_i hwin
      unfold matchesAt
      have : ¬ (j + pat.length ≤ b.length) := by omega
      simp [this]

/-- C3: `find(pat, start, byte_aligned)` returns the least index
`i ≥ start` where the slice of `pat`'s length equals `pat` (with `i` a
multiple of 8 when byte-aligned); every smaller index satisfying the
side conditions fails the equality, and an absent result means no index
satisfies it. -/
theorem find_least_index_spec :
    (∀ (b pat : List Bool) (start : Nat) (al : Bool) (i : Nat),
      find b pat start al = some i →
      start ≤ i ∧ (al = true → i % 8 = 0) ∧
        i + pat.length ≤ b.length ∧ slice b i (i + pat.length) = pat ∧
        ∀ j, start ≤ j → j < i → (al = true → j % 8 = 0) →
          ¬ (j + pat.length ≤ b.length ∧ slice b j (j + pat.length) = pat)) ∧
    (∀ (b pat : List Bool) (start : Nat) (al : Bool),
      find b pat start al = Option.none →
      ∀ j, start ≤ j → (al = true → j % 8 = 0) →
        ¬ (j + pat.length ≤ b.length ∧ slice b j (j + pat.length) = pat)) := by
  have halign : ∀ (al : Bool) (j : Nat),
      (al = true → j % 8 = 0) → alignOK al j = true := by
    intro al j h
    cases al <;> simp [alignOK]
    exact h rfl
  have hmatch : ∀ (b pat : List Bool) (j : Nat), matchesAt b pat j = false →
      ¬ (j + pat.length ≤ b.length ∧ slice b j (j + pat.length) = pat) := by
    intro b pat j h hcontra
    unfold matchesAt at h
    simp [hcontra.1, hcontra.2] at h
  constructor
  · intro b pat start al i h
    obtain ⟨h1, h2, h3, h4⟩ := findAux_some h
    unfold matchesAt at h3
    rw [Bool.and_eq_true, decide_eq_true_eq, decide_eq_true_eq] at h3
    refine ⟨h1, ?_, h3.1, h3.2, fun j hj1 hj2 hj3 =>
      hmatch b pat j (h4 j hj1 hj2 (halign al j hj3))⟩
    intro hal
    have := h2
    rw [hal] at this
    simpa [alignOK] using this
  · intro b pat start al h j hj1 hj2
    exact hmatch b pat j
      (findAux_none (by omega) h j hj1 (halign al j hj2))

/-- Witness for C3 at the README example: in the 24 bits of bytes
`01 02 03`, the pattern `0b11` is first found at index 22. -/
theorem find_least_index_spec_witness :
    slice [false, false, false, false, false, false, false, true,
           false, false, false, false, false, false, true, false,
           false, false, false, false, false, false, true, true]
      22 (22 + [true, true].length) = [true, true] :=
  (find_least_index_spec.1 _ [true, true] 0 false 22 (by decide)).2.2.2.1

/-! ## `Bits.from_string` token semantics and scenario S1 (claim C7) -/

/-- `to_bytes()`: pack the logical bits into bytes, left-aligned,
zero-padded at the tail to the next byte boundary. -/
def toBytes (l : List Bool) : List Nat :=
  (chunks8 (l ++ List.replicate ((8 - l.length % 8) % 8) false)).map bitsToNat

/-- One comma-separated token of the bit-source string grammar
(spec §6). -/
inductive BitsToken
  | binLit (bs : List Bool)
  | octLit (ds : List Nat)
  | hexLit (ds : List Nat)
  | typed (s : DtypeSingle) (v : Value)

/-- Modelled from the spec: the bits denoted by one token of the
bit-source string grammar; binary/octal/hex literals are MSB first and
typed tokens pack through the dtype codec. -/
def tokenBits : BitsToken → Option (List Bool)
  | .binLit bs => some bs
  | .octLit ds => if ds.all (· < 8) then some (packDigits 3 ds) else Option.none
  | .hexLit ds => if ds.all (· < 16) then some (packDigits 4 ds) else Option.none
  | .typed s v => packSingle s v

/-- Comma-separated concatenation of tokens, in order. -/
def fromTokens : List BitsToken → Option (List Bool)
  | [] => some []
  | t :: ts => do
    let b ← tokenBits t
    let bs ← fromTokens ts
    pure (b ++ bs)

/-- The token list of the string `0b001, u32=90, 0x5e` (scenario S1);
`u32` defaults to big-endian. -/
def s1Tokens : List BitsToken :=
  [.binLit [false, false, true],
   .typed ⟨.uint, 32, .be⟩ (.vInt 90),
   .hexLit [5, 14]]

/-- C7 counterexample: the S1 input does produce 43 bits, but the bytes
of those bits padded to 48 are not `0x001A000BC0` as the claim states
(that value is not even 6 bytes long). -/
theorem s1_bytes_counterexample :
    (fromTokens s1Tokens).map List.length = some 43 ∧
    (fromTokens s1Tokens).map toBytes ≠ some [0x00, 0x1A, 0x00, 0x0B, 0xC0] := by
  decide

/-- C7 amended: the S1 input `0b001, u32=90, 0x5e` yields 43 bits, and
those bits padded to 48 bits pack to the bytes `0x2000000B4BC0`. -/
theorem s1_bits_and_bytes :
    (fromTokens s1Tokens).map List.length = some 43 ∧
    (fromTokens s1Tokens).map toBytes =
      some [0x20, 0x00, 0x00, 0x0B, 0x4B, 0xC0] := by
  decide

/-! ## Expressions (spec §3 / §4.F)

Modelled from the spec: pre-parsed expression ASTs over a name
environment, evaluated eagerly; `UnresolvedName` for unbound names,
`Arithmetic` for division by zero.  Comparisons yield integer 0/1. -/

/-- Binary operators of the expression language. -/
inductive BinOp
  | add | sub | mul | fdiv | mod | shl | shr | band | bor | bxor
  | eq | ne | lt | le | gt | ge | andL | orL
deriving DecidableEq

/-- Unary operators of the expression language. -/
inductive UnOp
  | neg | bnot | lnot
deriving DecidableEq

/-- Expression trees: literals, name references, binary/unary ops,
indexing and conditionals. -/
inductive Expr
  | lit (i : Int)
  | name (s : String)
  | binop (op : BinOp) (a b : Expr)
  | unop (op : UnOp) (a : Expr)
  | index (a i : Expr)
  | cond (c a b : Expr)
deriving DecidableEq

/-- The interpreter environment: names bound to values, innermost
binding first (shadowing = first match wins). -/
abbrev Env := List (String × Value)

/-- Look a name up in the environment. -/
def envLookup (env : Env) (s : String) : Option Value :=
  (env.find? (fun p => p.1 == s)).map Prod.snd

/-- Numeric coercion of a value for use inside an expression. -/
def valueToInt : Value → Option Int
  | .vInt i => some i
  | .vBool b => some (if b then 1 else 0)
  | _ => Option.none

/-- Index into a sequence value (a `vCons` chain). -/
def valueNth : Value → Nat → Option Value
  | .vCons v _, 0 => some v
  | .vCons _ vs, n + 1 => valueNth vs n
  | _, _ => Option.none

/-- Integer semantics of binary operators (host arbitrary-precision
semantics; floor division and sign-of-divisor modulus as in Python;
division by zero and negative shifts are `Arithmetic` errors). -/
def evalBinOp : BinOp → Int → Int → Except Err Value
  | .add, x, y => .ok (.vInt (x + y))
  | .sub, x, y => .ok (.vInt (x - y))
  | .mul, x, y => .ok (.vInt (x * y))
  | .fdiv, x, y =>
    if y = 0 then .error .arithmetic else .ok (.vInt (Int.fdiv x y))
  | .mod, x, y =>
    if y = 0 then .error .arithmetic else .ok (.vInt (Int.fmod x y))
  | .shl, x, y =>
    if y < 0 then .error .arithmetic else .ok (.vInt (x * 2 ^ y.toNat))
  | .shr, x, y =>
    if y < 0 then .error .arithmetic else .ok (.vInt (Int.fdiv x (2 ^ y.toNat)))
  | .band, x, y => .ok (.vInt (Int.land x y))
  | .bor, x, y => .ok (.vInt (Int.lor x y))
  | .bxor, x, y => .ok (.vInt (Int.xor x y))
  | .eq, x, y => .ok (.vInt (if x = y then 1 else 0))
  | .ne, x, y => .ok (.vInt (if x = y then 0 else 1))
  | .lt, x, y => .ok (.vInt (if x < y then 1 else 0))
  | .le, x, y => .ok (.vInt (if x ≤ y then 1 else 0))
  | .gt, x, y => .ok (.vInt (if y < x then 1 else 0))
  | .ge, x, y => .ok (.vInt (if y ≤ x then 1 else 0))
  | .andL, x, y => .ok (.vInt (if x ≠ 0 ∧ y ≠ 0 then 1 else 0))
  | .orL, x, y => .ok (.vInt (if x ≠ 0 ∨ y ≠ 0 then 1 else 0))

/-- Integer semantics of unary operators. -/
def evalUnOp : UnOp → Int → Int
  | .neg, x => -x
  | .bnot, x => -(x + 1)
  | .lnot, x => if x = 0 then 1 else 0

/-- Eager evaluation of an expression in an environment. -/
def evalValue : Expr → Env → Except Err Value
  | .lit i, _ => .ok (.vInt i)
  | .name s, env =>
    match envLookup env s with
    | some v => .ok v
    | Option.none => .error .unresolvedName
  | .binop op a b, env => do
    let va ← evalValue a env
    let vb ← evalValue b env
    match valueToInt va, valueToInt vb with
    | some x, some y => evalBinOp op x y
    | _, _ => .error .arithmetic
  | .unop op a, env => do
    let va ← evalValue a env
    match valueToInt va with
    | some x => .ok (.vInt (evalUnOp op x))
    | Option.none => .error .arithmetic
  | .index a i, env => do
    let va ← evalValue a env
    let vi ← evalValue i env
    match valueToInt vi with
    | some x =>
      if x < 0 then .error .outOfRange
      else
        match valueNth va x.toNat with
        | some v => .ok v
        | Option.none => .error .outOfRange
    | Option.none => .error .arithmetic
  | .cond c a b, env => do
    let vc ← evalValue c env
    match valueToInt vc with
    | some x => if x ≠ 0 then evalValue a env else evalValue b env
    | Option.none => .error .arithmetic

/-! ## Schema tree and interpreter (spec §3 / §4.G,H)

Modelled from the spec: the schema interpreter implementation is not
under the given source tree.  Parsing and packing are fuelled: every
recursive step passes `fuel - 1`, identically on the pack and parse
sides, so the round-trip theorem quantifies over the same fuel on both
sides and any fuel that lets `pack` finish lets `parse` finish. -/

/-- A dtype size or item count inside a schema: a literal or a
brace-expression evaluated in the current environment. -/
inductive SizeSpec
  | lit (n : Nat)
  | expr (e : Expr)
deriving DecidableEq

/-- Dtypes as they occur in schemas, with possibly expression-driven
sizes and item counts. -/
inductive DtypeE
  | single (kind : DtypeKind) (size : SizeSpec) (endianness : Endianness)
  | array (items : SizeSpec) (kind : DtypeKind) (size : SizeSpec)
      (endianness : Endianness)
  | tupleNilE
  | tupleConsE (head tail : DtypeE)
deriving DecidableEq

/-- Evaluate a size/count specification; negative results are
`OutOfRange`. -/
def resolveSize (sz : SizeSpec) (env : Env) : Except Err Nat :=
  match sz with
  | .lit n => .ok n
  | .expr e => do
    let v ← evalValue e env
    match valueToInt v with
    | some x => if x < 0 then .error .outOfRange else .ok x.toNat
    | Option.none => .error .arithmetic

/-- Resolve a schema dtype to a concrete dtype by evaluating its size
expressions in the current environment. -/
def resolveDtype : DtypeE → Env → Except Err Dtype
  | .single k sz e, env => do
    let n ← resolveSize sz env
    .ok (.single ⟨k, n, e⟩)
  | .array its k sz e, env => do
    let n ← resolveSize its env
    let m ← resolveSize sz env
    .ok (.array n ⟨k, m, e⟩)
  | .tupleNilE, _ => .ok .tupleNil
  | .tupleConsE d r, env => do
    let hd ← resolveDtype d env
    let tl ← resolveDtype r env
    match tl with
    | .tupleNil => .ok (.tupleCons hd .tupleNil)
    | .tupleCons a b => .ok (.tupleCons hd (.tupleCons a b))
    | _ => .error .badDtype

/-- Schema nodes (spec §3): fields, const fields, formats (whose child
list is a `seqCons`/`seqNil` spine), if/else, repeat, let and pass. -/
inductive FieldType
  | field (name : Option String) (dt : DtypeE)
  | constF (name : Option String) (bits : List Bool)
  | format (name : Option String) (body : FieldType)
  | seqNil
  | seqCons (child rest : FieldType)
  | ifElse (c : Expr) (thenBranch elseBranch : FieldType)
  | repeatF (count : Expr) (body : FieldType)
  | letBind (name : String) (e : Expr)
  | pass
deriving DecidableEq

/-- The value tree a schema binds: one node per schema node.  Const
fields carry no input value (`constV`), which is how "modulo const
fields" is expressed: the parse result can only ever hold their
declared value. -/
inductive VTree
  | leafV (v : Value)
  | constV
  | nodeV (sub : VTree)
  | vtNil
  | vtCons (head rest : VTree)
  | ifV (sub : VTree)
  | repV (sub : VTree)
  | unitV
deriving DecidableEq

/-- Outcome of a parse: on success the cursor, environment and bound
value tree; on error, the error kind together with the cursor position
and bindings reached before the failing step. -/
inductive ParseOut
  | ok (pos : Nat) (env : Env) (v : VTree)
  | err (e : Err) (pos : Nat) (env : Env)
deriving DecidableEq

/-- Bind an optional field name. -/
def bindName : Option String → Value → Env → Env
  | Option.none, _, env => env
  | some n, v, env => (n, v) :: env

/-- Unroll a `Repeat` body `n` times starting at loop index `i`; each
iteration binds the implicit loop index `_` for the body (spec §4.H). -/
def unroll (body : FieldType) : Nat → Nat → FieldType
  | _, 0 => .seqNil
  | i, n + 1 =>
    .seqCons (.seqCons (.letBind "_" (.lit i)) body) (unroll body (i + 1) n)

/-- The parse walk (spec §4.H): slice bits at the cursor, unpack, bind;
const fields require bit-equality with the declared bits
(`ConstMismatch`); `If` picks a branch from the environment; `Repeat`
evaluates its count once and runs the unrolled body; `Let` binds and
consumes nothing; a `Format` scopes its own sub-names (they are dropped
from the environment on exit).  On error the reported cursor and
environment are exactly those reached before the failing step. -/
def parseFT : Nat → FieldType → List Bool → Nat → Env → ParseOut
  | 0, _, _, pos, env => .err .schemaError pos env
  | fuel + 1, ft, b, pos, env =>
    match ft with
    | .field nm dt =>
      match resolveDtype dt env with
      | .error e => .err e pos env
      | .ok d =>
        if pos + dtypeSize d ≤ b.length then
          match unpackDtype d (slice b pos (pos + dtypeSize d)) with
          | some v => .ok (pos + dtypeSize d) (bindName nm v env) (.leafV v)
          | Option.none => .err .badDtype pos env
        else .err .shortInput pos env
    | .constF nm cb =>
      if pos + cb.length ≤ b.length then
        if slice b pos (pos + cb.length) = cb then
          .ok (pos + cb.length) (bindName nm (.vBits cb) env) .constV
        else .err .constMismatch pos env
      else .err .shortInput pos env
    | .format _ body =>
      match parseFT fuel body b pos env with
      | .ok p _ v => .ok p env (.nodeV v)
      | .err e p env' => .err e p env'
    | .seqNil => .ok pos env .vtNil
    | .seqCons c rest =>
      match parseFT fuel c b pos env with
      | .ok p1 env1 v1 =>
        match parseFT fuel rest b p1 env1 with
        | .ok p2 env2 v2 => .ok p2 env2 (.vtCons v1 v2)
        | .err e p env' => .err e p env'
      | .err e p env' => .err e p env'
    | .ifElse c tB eB =>
      match evalValue c env with
      | .error e => .err e pos env
      | .ok vc =>
        match valueToInt vc with
        | Option.none => .err .arithmetic pos env
        | some x =>
          match parseFT fuel (if x ≠ 0 then tB else eB) b pos env with
          | .ok p env' v => .ok p env' (.ifV v)
          | .err e p env' => .err e p env'
    | .repeatF cnt body =>
      match evalValue cnt env with
      | .error e => .err e pos env
      | .ok vc =>
        match valueToInt vc with
        | Option.none => .err .outOfRange pos env
        | some x =>
          if x < 0 then .err .outOfRange pos env
          else
            match parseFT fuel (unroll body 0 x.toNat) b pos env with
            | .ok p env' v => .ok p env' (.repV v)
            | .err e p env' => .err e p env'
    | .letBind nm e =>
      match evalValue e env with
      | .ok v => .ok pos ((nm, v) :: env) .unitV
      | .error er => .err er pos env
    | .pass => .ok pos env .unitV

/-- The build/pack walk (spec §4.H), the dual of `parseFT`: values are
pulled from the value tree, const fields pull nothing, conditions and
counts are evaluated from the bindings made so far, and the produced
bits are the concatenation in document order. -/
def packFT : Nat → FieldType → VTree → Env → Option (List Bool × Env)
  | 0, _, _, _ => Option.none
  | fuel + 1, ft, V, env =>
    match ft, V with
    | .field nm dt, .leafV v =>
      match resolveDtype dt env with
      | .error _ => Option.none
      | .ok d =>
        match packDtype d v with
        | some bs => some (bs, bindName nm v env)
        | Option.none => Option.none
    | .constF nm cb, .constV => some (cb, bindName nm (.vBits cb) env)
    | .format _ body, .nodeV sub =>
      match packFT fuel body sub env with
      | some (bs, _) => some (bs, env)
      | Option.none => Option.none
    | .seqNil, .vtNil => some ([], env)
    | .seqCons c rest, .vtCons v1 v2 =>
      match packFT fuel c v1 env with
      | some (b1, env1) =>
        match packFT fuel rest v2 env1 with
        | some (b2, env2) => some (b1 ++ b2, env2)
        | Option.none => Option.none
      | Option.none => Option.none
    | .ifElse c tB eB, .ifV sub =>
      match evalValue c env with
      | .error _ => Option.none
      | .ok vc =>
        match valueToInt vc with
        | Option.none => Option.none
        | some x => packFT fuel (if x ≠ 0 then tB else eB) sub env
    | .repeatF cnt body, .repV vs =>
      match evalValue cnt env with
      | .error _ => Option.none
      | .ok vc =>
        match valueToInt vc with
        | Option.none => Option.none
        | some x =>
          if x < 0 then Option.none
          else packFT fuel (unroll body 0 x.toNat) vs env
    | .letBind nm e, .unitV =>
      match evalValue e env with
      | .ok v => some ([], (nm, v) :: env)
      | .error _ => Option.none
    | .pass, .unitV => some ([], env)
    | _, _ => Option.none

theorem slice_middle (pre bs post : List Bool) :
    slice (pre ++ bs ++ post) pre.length (pre.length + bs.length) = bs := by
  unfold slice
  rw [Nat.add_sub_cancel_left, List.append_assoc, List.drop_left,
    List.take_left]

theorem packFT_parseFT :
    ∀ (fuel : Nat) (ft : FieldType) (V : VTree) (env : Env)
      (bs : List Bool) (env' : Env),
      packFT fuel ft V env = some (bs, env') →
      ∀ (pre post : List Bool),
        parseFT fuel ft (pre ++ bs ++ post) pre.length env =
          .ok (pre.length + bs.length) env' V := by
  intro fuel
  induction fuel with
  | zero => intro ft V env bs env' h; cases h
  | succ fuel ih =>
    intro ft V env bs env' h pre post
    cases ft with
    | field nm dt =>
      cases V
      case leafV v =>
        unfold packFT at h
        cases hres : resolveDtype dt env with
        | error e => simp only [hres] at h; exact Option.noConfusion h
        | ok d =>
          simp only [hres] at h
          cases hp : packDtype d v with
          | none => simp only [hp] at h; exact Option.noConfusion h
          | some bs0 =>
            simp only [hp, Option.some.injEq, Prod.mk.injEq] at h
            obtain ⟨hbs, henv⟩ := h
            subst hbs henv
            have hsz : bs0.length = dtypeSize d := packDtype_length hp
            unfold parseFT
            try simp only []
            simp only [hres]
            rw [if_pos (by simp [List.length_append] <;> omega)]
            rw [← hsz, slice_middle]
            simp only [packDtype_unpackDtype hp]
      all_goals exact Option.noConfusion h
    | constF nm cb =>
      cases V
      case constV =>
        unfold packFT at h
        simp only [Option.some.injEq, Prod.mk.injEq] at h
        obtain ⟨hbs, henv⟩ := h
        subst hbs henv
        unfold parseFT
        try simp only []
        rw [if_pos (by simp [List.length_append] <;> omega),
          if_pos (slice_middle _ _ _)]
      all_goals exact Option.noConfusion h
    | format nm body =>
      cases V
      case nodeV sub =>
        unfold packFT at h
        cases hb : packFT fuel body sub env with
        | none => simp only [hb] at h; exact Option.noConfusion h
        | some r =>
          obtain ⟨bs0, envIn⟩ := r
          simp only [hb, Option.some.injEq, Prod.mk.injEq] at h
          obtain ⟨hbs, henv⟩ := h
          subst hbs henv
          unfold parseFT
          try simp only []
          simp only [ih body sub env bs0 envIn hb pre post]
      all_goals exact Option.noConfusion h
    | seqNil =>
      cases V
      case vtNil =>
        unfold packFT at h
        simp only [Option.some.injEq, Prod.mk.injEq] at h
        obtain ⟨hbs, henv⟩ := h
        subst hbs henv
        unfold parseFT
        try simp only []
        simp
      all_goals exact Option.noConfusion h
    | seqCons c rest =>
      cases V
      case vtCons v1 v2 =>
        unfold packFT at h
        cases hp1 : packFT fuel c v1 env with
        | none => simp only [hp1] at h; exact Option.noConfusion h
        | some r1 =>
          obtain ⟨b1, env1⟩ := r1
          simp only [hp1] at h
          cases hp2 : packFT fuel rest v2 env1 with
          | none => simp only [hp2] at h; exact Option.noConfusion h
          | some r2 =>
            obtain ⟨b2, env2⟩ := r2
            simp only [hp2, Option.some.injEq, Prod.mk.injEq] at h
            obtain ⟨hbs, henv⟩ := h
            subst hbs henv
            have h1 := ih c v1 env b1 env1 hp1 pre (b2 ++ post)
            have h2 := ih rest v2 env1 b2 env2 hp2 (pre ++ b1) post
            rw [List.append_assoc] at h2
            simp only [List.length_append] at h2
            have e1 : pre ++ (b1 ++ b2) ++ post = pre ++ b1 ++ (b2 ++ post) := by
              simp [List.append_assoc]
            unfold parseFT
            try simp only []
            rw [e1]
            simp only [h1, h2]
            have e2 : pre.length + b1.length + b2.length
                = pre.length + (b1 ++ b2).length := by
              simp [List.length_append]
              omega
            rw [e2]
      all_goals exact Option.noConfusion h
    | ifElse c tB eB =>
      cases V
      case ifV sub =>
        unfold packFT at h
        cases hev : evalValue c env with
        | error e => simp only [hev] at h; exact Option.noConfusion h
        | ok vc =>
          simp only [hev] at h
          cases hti : valueToInt vc with
          | none => simp only [hti] at h; exact Option.noConfusion h
          | some x =>
            simp only [hti] at h
            unfold parseFT
            try simp only []
            simp only [hev, hti, ih _ sub env bs env' h pre post]
      all_goals exact Option.noConfusion h
    | repeatF cnt body =>
      cases V
      case repV vs =>
        unfold packFT at h
        cases hev : evalValue cnt env with
        | error e => simp only [hev] at h; exact Option.noConfusion h
        | ok vc =>
          simp only [hev] at h
          cases hti : valueToInt vc with
          | none => simp only [hti] at h; exact Option.noConfusion h
          | some x =>
            simp only [hti] at h
            by_cases hx : x < 0
            · rw [if_pos hx] at h; exact Option.noConfusion h
            · rw [if_neg hx] at h
              unfold parseFT
              try simp only []
              simp only [hev, hti]
              rw [if_neg hx]
              simp only [ih _ vs env bs env' h pre post]
      all_goals exact Option.noConfusion h
    | letBind nm e =>
      cases V
      case unitV =>
        unfold packFT at h
        cases hev : evalValue e env with
        | error er => simp only [hev] at h; exact Option.noConfusion h
        | ok v =>
          simp only [hev, Option.some.injEq, Prod.mk.injEq] at h
          obtain ⟨hbs, henv⟩ := h
          subst hbs henv
          unfold parseFT
          try simp only []
          simp only [hev]
          simp
      all_goals exact Option.noConfusion h
    | pass =>
      cases V
      case unitV =>
        unfold packFT at h
        simp only [Option.some.injEq, Prod.mk.injEq] at h
        obtain ⟨hbs, henv⟩ := h
        subst hbs henv
        unfold parseFT
        try simp only []
        simp
      all_goals exact Option.noConfusion h

/-- C2: for every schema `S` and value tree `V` it accepts (i.e. `pack`
succeeds), `parse` of the packed bits consumes exactly their length,
and the value tree bound by the parse equals `V`; const nodes carry no
input value in a tree, so the parse result can only hold their declared
values, which is the claim's "modulo const fields".  The same fuel
drives both walks: the recursion depth pack needed is exactly what
parse needs. -/
theorem schema_pack_parse_roundtrip (fuel : Nat) (S : FieldType) (V : VTree)
    (env : Env) (bs : List Bool) (env' : Env)
    (h : packFT fuel S V env = some (bs, env')) :
    parseFT fuel S bs 0 env = .ok bs.length env' V := by
  have hmain := packFT_parseFT fuel S V env bs env' h [] []
  simpa using hmain

/-- Witness for C2: a format with a `u8` field `w` followed by a field
whose size is the expression `{w}`; packing `w = 3` and `5` gives 11
bits that parse back to the same tree. -/
theorem schema_pack_parse_roundtrip_witness :
    parseFT 5
      (.format Option.none (.seqCons
        (.field (some "w") (.single .uint (.lit 8) .none))
        (.seqCons (.field Option.none (.single .uint (.expr (.name "w")) .none))
          .seqNil)))
      [false, false, false, false, false, false, true, true, true, false, true]
      0 [] =
      .ok 11 []
        (.nodeV (.vtCons (.leafV (.vInt 3))
          (.vtCons (.leafV (.vInt 5)) .vtNil))) :=
  schema_pack_parse_roundtrip 5 _ _ [] _ [] (by decide)

/-! ## Error behaviour of `parse` (claim C4)

`parseFT` reports, with each error, the cursor position and environment
reached before the failing step.  The theorems below relate a failing
run over a format's child chain to the successful run of the prefix of
children before the failing one. -/

/-- The chain of the first `k` children of a format body spine. -/
def seqTake : Nat → FieldType → FieldType
  | 0, _ => .seqNil
  | n + 1, .seqCons c rest => .seqCons c (seqTake n rest)
  | _ + 1, ft => ft

/-- The `k`-th child of a format body spine. -/
def seqNth : Nat → FieldType → Option FieldType
  | 0, .seqCons c _ => some c
  | n + 1, .seqCons _ rest => seqNth n rest
  | _, _ => Option.none

/-- Whether a node is a child chain (format body spine). -/
def isChain : FieldType → Bool
  | .seqNil => true
  | .seqCons _ rest => isChain rest
  | _ => false

theorem parse_chain_error_locate :
    ∀ (fuel : Nat) (chain : FieldType) (b : List Bool) (pos : Nat)
      (env : Env) (e : Err) (p' : Nat) (env' : Env),
      isChain chain = true →
      parseFT (fuel + 1) chain b pos env = .err e p' env' →
      ∃ (k : Nat) (c : FieldType) (p0 : Nat) (env0 : Env) (t0 : VTree)
        (fc : Nat),
        seqNth k chain = some c ∧
        parseFT (fuel + 1) (seqTake k chain) b pos env = .ok p0 env0 t0 ∧
        parseFT fc c b p0 env0 = .err e p' env' := by
  intro fuel
  induction fuel using Nat.strong_induction_on with
  | _ fuel ih =>
    intro chain b pos env e p' env' hchain herr
    cases chain with
    | seqNil =>
      unfold parseFT at herr
      exact ParseOut.noConfusion herr
    | seqCons c rest =>
      unfold parseFT at herr
      cases hc : parseFT fuel c b pos env with
      | err e1 p1 env1 =>
        simp only [hc] at herr
        obtain ⟨he, hp, henv⟩ := ParseOut.err.inj herr
        subst he hp henv
        refine ⟨0, c, pos, env, .vtNil, fuel, rfl, ?_, hc⟩
        unfold parseFT seqTake
        rfl
      | ok p1 env1 v1 =>
        simp only [hc] at herr
        cases hr : parseFT fuel rest b p1 env1 with
        | ok p2 env2 v2 =>
          simp only [hr] at herr
          exact ParseOut.noConfusion herr
        | err e2 p2 env2 =>
          simp only [hr] at herr
          obtain ⟨he, hp, henv⟩ := ParseOut.err.inj herr
          subst he hp henv
          cases fuel with
          | zero =>
            unfold parseFT at hc
            exact ParseOut.noConfusion hc
          | succ f =>
            have hchain' : isChain rest = true := by
              simpa [isChain] using hchain
            obtain ⟨k, cc, p0, env0, t0, fc, h1, h2, h3⟩ :=
              ih f (by omega) rest b p1 env1 _ _ _ hchain' hr
            refine ⟨k + 1, cc, p0, env0, .vtCons v1 t0, fc, ?_, ?_, h3⟩
            · simpa [seqNth] using h1
            · show parseFT (f + 1 + 1) (.seqCons c (seqTake k rest)) b pos env
                = .ok p0 env0 (.vtCons v1 t0)
              unfold parseFT
              simp only [hc, h2]
    | field nm dt => simp [isChain] at hchain
    | constF nm cb => simp [isChain] at hchain
    | format nm body => simp [isChain] at hchain
    | ifElse c t e2 => simp [isChain] at hchain
    | repeatF cnt body => simp [isChain] at hchain
    | letBind nm ex => simp [isChain] at hchain
    | pass => simp [isChain] at hchain

/-- C4: when `parse` fails, the reported cursor position and bindings
are exactly those reached before the failing step: a failing run over a
child chain decomposes into a successful parse of the first `k`
children, whose final cursor and environment are the state the failing
child ran from, the error state being the one that child reports
(recursively subject to the same property).  In particular (scenario
S5), a const mismatch on the first field of
`(code: const hex8 = 0x000001b3, size: u12)` reports position 0 with
the empty environment, in which `size` has no binding. -/
theorem parse_error_state_spec :
    (∀ (fuel : Nat) (chain : FieldType) (b : List Bool) (pos : Nat)
      (env : Env) (e : Err) (p' : Nat) (env' : Env),
      isChain chain = true →
      parseFT (fuel + 1) chain b pos env = .err e p' env' →
      ∃ (k : Nat) (c : FieldType) (p0 : Nat) (env0 : Env) (t0 : VTree)
        (fc : Nat),
        seqNth k chain = some c ∧
        parseFT (fuel + 1) (seqTake k chain) b pos env = .ok p0 env0 t0 ∧
        parseFT fc c b p0 env0 = .err e p' env') ∧
    (parseFT 3
      (.seqCons (.constF (some "code")
          [false, false, false, false, false, false, false, false,
           false, false, false, false, false, false, false, false,
           false, false, false, false, false, false, false, true,
           true, false, true, true, false, false, true, true])
        (.seqCons (.field (some "size") (.single .uint (.lit 12) .none))
          .seqNil))
      [false, false, false, false, false, false, false, true,
       false, false, false, false, false, false, false, false,
       false, false, false, false, false, false, false, true,
       true, false, true, true, false, false, true, true,
       false, false, false, true, false, false, true, false,
       false, false, true, true]
      0 [] = .err .constMismatch 0 [] ∧
     envLookup [] "size" = Option.none) := by
  constructor
  · exact parse_chain_error_locate
  · constructor
    · decide
    · rfl

/-- Witness for C4: applying the location theorem to the S5 failing
parse yields the decomposition with an empty successful prefix. -/
theorem parse_error_state_spec_witness :
    ∃ (k : Nat) (c : FieldType) (p0 : Nat) (env0 : Env) (t0 : VTree)
      (fc : Nat),
      seqNth k (.seqCons (.constF (some "code")
          [false, false, false, false, false, false, false, false,
           false, false, false, false, false, false, false, false,
           false, false, false, false, false, false, false, true,
           true, false, true, true, false, false, true, true])
        (.seqCons (.field (some "size") (.single .uint (.lit 12) .none))
          .seqNil)) = some c ∧
      parseFT (2 + 1) (seqTake k (.seqCons (.constF (some "code")
          [false, false, false, false, false, false, false, false,
           false, false, false, false, false, false, false, false,
           false, false, false, false, false, false, false, true,
           true, false, true, true, false, false, true, true])
        (.seqCons (.field (some "size") (.single .uint (.lit 12) .none))
          .seqNil)))
        [false, false, false, false, false, false, false, true,
         false, false, false, false, false, false, false, false,
         false, false, false, false, false, false, false, true,
         true, false, true, true, false, false, true, true,
         false, false, false, true, false, false, true, false,
         false, false, true, true]
        0 [] = .ok p0 env0 t0 ∧
      parseFT fc c
        [false, false, false, false, false, false, false, true,
         false, false, false, false, false, false, false, false,
         false, false, false, false, false, false, false, true,
         true, false, true, true, false, false, true, true,
         false, false, false, true, false, false, true, false,
         false, false, true, true]
        p0 env0 = .err .constMismatch 0 [] :=
  parse_error_state_spec.1 2
    (.seqCons (.constF (some "code")
        [false, false, false, false, false, false, false, false,
         false, false, false, false, false, false, false, false,
         false, false, false, false, false, false, false, true,
         true, false, true, true, false, false, true, true])
      (.seqCons (.field (some "size") (.single .uint (.lit 12) .none))
        .seqNil))
    [false, false, false, false, false, false, false, true,
     false, false, false, false, false, false, false, false,
     false, false, false, false, false, false, false, true,
     true, false, true, true, false, false, true, true,
     false, false, false, true, false, false, true, false,
     false, false, true, true]
    0 [] .constMismatch 0 [] (by decide) (by decide)

/-! ## Schema node state and `clear()` (claim C8)

Modelled from the spec: each field node of a bound schema holds an
optional value (`none` = unbound); const nodes hold their declared
value, fixed at construction.  `clear()` sets the value of everything
that is not const to `None` (user manual, `FieldType.clear`). -/

/-- Runtime state of a schema tree: one node per schema node, fields
holding an optional bound value, const fields holding their declared
value. -/
inductive SchemaState
  | leafS (val : Option Value)
  | constS (val : Value)
  | nodeS (sub : SchemaState)
  | sNil
  | sCons (head rest : SchemaState)
  | ifS (sub : SchemaState)
  | repS (sub : SchemaState)
  | unitS
deriving DecidableEq

/-- `clear()`: set every non-const node's value to unbound; const nodes
are untouched. -/
def clearS : SchemaState → SchemaState
  | .leafS _ => .leafS Option.none
  | .constS v => .constS v
  | .nodeS s => .nodeS (clearS s)
  | .sNil => .sNil
  | .sCons h r => .sCons (clearS h) (clearS r)
  | .ifS s => .ifS (clearS s)
  | .repS s => .repS (clearS s)
  | .unitS => .unitS

/-- Is every non-const node of the state unbound? -/
def allNonConstUnbound : SchemaState → Bool
  | .leafS v => v.isNone
  | .constS _ => true
  | .nodeS s => allNonConstUnbound s
  | .sNil => true
  | .sCons h r => allNonConstUnbound h && allNonConstUnbound r
  | .ifS s => allNonConstUnbound s
  | .repS s => allNonConstUnbound s
  | .unitS => true

/-- The values of the const nodes, in document order. -/
def constEntries : SchemaState → List Value
  | .leafS _ => []
  | .constS v => [v]
  | .nodeS s => constEntries s
  | .sNil => []
  | .sCons h r => constEntries h ++ constEntries r
  | .ifS s => constEntries s
  | .repS s => constEntries s
  | .unitS => []

/-- The shape of a state tree, forgetting all values: used to state that
`clear` modifies nothing but values. -/
inductive StateShape
  | leafSh
  | constSh
  | nodeSh (sub : StateShape)
  | nilSh
  | consSh (head rest : StateShape)
  | ifSh (sub : StateShape)
  | repSh (sub : StateShape)
  | unitSh
deriving DecidableEq

/-- Forget the values of a state tree. -/
def stateShape : SchemaState → StateShape
  | .leafS _ => .leafSh
  | .constS _ => .constSh
  | .nodeS s => .nodeSh (stateShape s)
  | .sNil => .nilSh
  | .sCons h r => .consSh (stateShape h) (stateShape r)
  | .ifS s => .ifSh (stateShape s)
  | .repS s => .repSh (stateShape s)
  | .unitS => .unitSh

/-- C8: `clear()` sets the value of every non-const node to unbound,
while every const-bound node keeps its declared value unchanged, and no
other part of the tree is modified (the shape is preserved, and the
only nodes whose content can differ are the non-const value slots). -/
theorem clear_spec (st : SchemaState) :
    allNonConstUnbound (clearS st) = true ∧
    constEntries (clearS st) = constEntries st ∧
    stateShape (clearS st) = stateShape st := by
  induction st with
  | leafS v => simp [clearS, allNonConstUnbound, constEntries, stateShape]
  | constS v => simp [clearS, allNonConstUnbound, constEntries, stateShape]
  | nodeS s ih =>
    simpa [clearS, allNonConstUnbound, constEntries, stateShape] using ih
  | sNil => simp [clearS, allNonConstUnbound, constEntries, stateShape]
  | sCons h r ihh ihr =>
    simp only [clearS, allNonConstUnbound, constEntries, stateShape,
      Bool.and_eq_true]
    exact ⟨⟨ihh.1, ihr.1⟩, by rw [ihh.2.1, ihr.2.1], by rw [ihh.2.2, ihr.2.2]⟩
  | ifS s ih =>
    simpa [clearS, allNonConstUnbound, constEntries, stateShape] using ih
  | repS s ih =>
    simpa [clearS, allNonConstUnbound, constEntries, stateShape] using ih
  | unitS => simp [clearS, allNonConstUnbound, constEntries, stateShape]

/-! ## The schema grammar (transcribed from `src/bitformat/format_parser.lark`)

A nondeterministic recursive-descent transcription of the lark grammar:
each rule is a function from the remaining characters to the list of
possible (result, remainder) pairs; `%ignore WS` is modelled by letting
every terminal skip leading whitespace, and acceptance of a whole
schema requires an all-whitespace remainder.  `python.string` is
modelled as a simply-quoted string with an optional one-letter prefix,
which is enough for the inputs considered here. -/

/-- Nondeterministic parser: possible (result, remainder) pairs. -/
abbrev P (A : Type) : Type := List Char → List (A × List Char)

/-- Succeed without consuming. -/
def pPure {A : Type} (a : A) : P A := fun s => [(a, s)]

/-- Fail. -/
def pFail {A : Type} : P A := fun _ => []

/-- Map over results. -/
def pMap {A B : Type} (f : A → B) (p : P A) : P B :=
  fun s => (p s).map (fun pr => (f pr.1, pr.2))

/-- Sequence two unit parsers. -/
def pCat (p q : P Unit) : P Unit :=
  fun s => (p s).flatMap (fun pr => q pr.2)

/-- Alternation: collect the results of both branches. -/
def pAlt {A : Type} (p q : P A) : P A := fun s => p s ++ q s

/-- An optional clause `[p]`. -/
def pMaybe (p : P Unit) : P Unit := fun s => ((), s) :: p s

/-- Forget a parser's result. -/
def pU {A : Type} (p : P A) : P Unit := pMap (fun _ => ()) p

/-- Whitespace characters (lark `WS`, which also covers `NEWLINE`). -/
def isWSChar (c : Char) : Bool :=
  c == ' ' || c == '\t' || c == '\n' || c == '\r'

/-- All nonempty prefixes of the maximal run of characters satisfying
`f`, with the corresponding remainders (the possible matches of a
one-or-more character class). -/
def runSplits (f : Char → Bool) : P (List Char) :=
  fun s =>
    (List.range (s.takeWhile f).length).map
      (fun k => (s.take (k + 1), s.drop (k + 1)))

/-- Match a literal string (no leading-whitespace skip). -/
def pLit (tok : String) : P Unit :=
  fun s =>
    if s.take tok.toList.length = tok.toList then [((), s.drop tok.toList.length)]
    else []

/-- Match a literal token, skipping ignored leading whitespace. -/
def pLitT (tok : String) : P Unit :=
  fun s => pLit tok (s.dropWhile isWSChar)

/-- Match a single literal character as a token. -/
def pCharT (c : Char) : P Unit :=
  fun s =>
    match s.dropWhile isWSChar with
    | c2 :: r => if c2 == c then [((), r)] else []
    | [] => []

/-- A one-or-more character-class token, skipping leading whitespace. -/
def pClassT (f : Char → Bool) : P (List Char) :=
  fun s => runSplits f (s.dropWhile isWSChar)

/-- `dtype_kind: /u|i|f|bool|bytes|hex|bin|oct|bits|pad/` -/
def pKind : P Unit :=
  pAlt (pLitT "bool") (pAlt (pLitT "bytes") (pAlt (pLitT "bits")
    (pAlt (pLitT "bin") (pAlt (pLitT "hex") (pAlt (pLitT "oct")
      (pAlt (pLitT "pad") (pAlt (pLitT "u") (pAlt (pLitT "i")
        (pLitT "f")))))))))

/-- `dtype_modifier: /le|be|ne/` -/
def pModifier : P Unit :=
  pAlt (pLitT "le") (pAlt (pLitT "be") (pLitT "ne"))

/-- `expression: "{" /[^\x7d]+/ "}"` -/
def pExprTok : P Unit :=
  pCat (pCharT '\x7b') (pCat (pU (pClassT (fun c => c != '\x7d')))
    (pCharT '\x7d'))

/-- `INT` (one or more digits). -/
def pIntT : P Unit := pU (pClassT Char.isDigit)

/-- `dtype_size`/`dtype_items`: `INT | expression`. -/
def pSizeTok : P Unit := pAlt pIntT pExprTok

/-- Python identifier characters. -/
def isIdentChar (c : Char) : Bool := c.isAlphanum || c == '_'

/-- `NAME` (a Python identifier), skipping leading whitespace. -/
def pNameT : P Unit :=
  fun s =>
    match s.dropWhile isWSChar with
    | c :: _ =>
      if c.isAlpha || c == '_' then pU (runSplits isIdentChar) (s.dropWhile isWSChar)
      else []
    | [] => []

/-- `dtype_single: dtype_kind ["_" dtype_modifier] [dtype_size]` -/
def pDtypeSingle : P Unit :=
  pCat pKind (pCat (pMaybe (pCat (pCharT '_') pModifier)) (pMaybe pSizeTok))

/-- `dtype_array: "[" dtype_single ";" [dtype_items] "]"` -/
def pDtypeArray : P Unit :=
  pCat (pCharT '[') (pCat pDtypeSingle (pCat (pCharT ';')
    (pCat (pMaybe pSizeTok) (pCharT ']'))))

/-- Zero or more repetitions of `p`, at most `fuel` of them. -/
def pStar (p : P Unit) : Nat → P Unit
  | 0 => pPure ()
  | fuel + 1 => pMaybe (pCat p (pStar p fuel))

/-- `dtype: dtype_tuple | dtype_single | dtype_array`, where
`dtype_tuple: "(" dtype ("," dtype)* [","] ")"`. -/
def pDtype : Nat → P Unit
  | 0 => pFail
  | fuel + 1 =>
    pAlt
      (pCat (pCharT '(')
        (pCat (pDtype fuel)
          (pCat (pStar (pCat (pCharT ',') (pDtype fuel)) fuel)
            (pCat (pMaybe (pCharT ',')) (pCharT ')')))))
      (pAlt pDtypeSingle pDtypeArray)

/-- `inline_string: /[a-zA-Z0-9\.\+\-]+/` -/
def pInlineString : P Unit :=
  pU (pClassT (fun c => c.isAlphanum || c == '.' || c == '+' || c == '-'))

/-- `python.string`, simplified: an optional one-letter prefix and a
simply-quoted body. -/
def pPyString : P Unit :=
  pCat
    (pMaybe (pU (fun s =>
      match s.dropWhile isWSChar with
      | c :: r =>
        if c == 'b' || c == 'f' || c == 'r' || c == 'u' then [((), r)] else []
      | [] => [])))
    (pAlt
      (pCat (pCharT '"') (pCat (pMaybe (pU (pClassT (fun c => c != '"'))))
        (pLit "\"")))
      (pCat (pCharT '\'') (pCat (pMaybe (pU (pClassT (fun c => c != '\''))))
        (pLit "'"))))

/-- `simple_value: python_string | inline_string` -/
def pSimpleValue : P Unit := pAlt pPyString pInlineString

/-- `list_of_values`: a bracketed or parenthesised comma list of simple
values. -/
def pListOfValues (fuel : Nat) : P Unit :=
  pAlt
    (pCat (pCharT '[') (pCat pSimpleValue
      (pCat (pStar (pCat (pCharT ',') pSimpleValue) fuel)
        (pCat (pMaybe (pCharT ',')) (pCharT ']')))))
    (pCat (pCharT '(') (pCat pSimpleValue
      (pCat (pStar (pCat (pCharT ',') pSimpleValue) fuel)
        (pCat (pMaybe (pCharT ',')) (pCharT ')')))))

/-- `value: simple_value | list_of_values` -/
def pValue (fuel : Nat) : P Unit := pAlt pSimpleValue (pListOfValues fuel)

/-- `[field_name ":"]` -/
def pOptName : P Unit := pMaybe (pCat pNameT (pCharT ':'))

/-- `const_field: [field_name ":"] "const " dtype "=" value` -/
def pConstField (fuel : Nat) : P Unit :=
  pCat pOptName (pCat (pLitT "const ") (pCat (pDtype fuel)
    (pCat (pCharT '=') (pValue fuel))))

/-- `mutable_field: [field_name ":"] dtype ["=" value]` -/
def pMutableField (fuel : Nat) : P Unit :=
  pCat pOptName (pCat (pDtype fuel)
    (pMaybe (pCat (pCharT '=') (pValue fuel))))

/-- `field: const_field | mutable_field` -/
def pField (fuel : Nat) : P Unit :=
  pAlt (pConstField fuel) (pMutableField fuel)

/-- `pass_: ["pass"]` — the keyword is optional, so the empty string is
a valid `pass_`. -/
def pPassR : P Unit := pMaybe (pLitT "pass")

/-- The field_type alternatives of the grammar, as result shapes. -/
inductive FTAst
  | fieldA | formatA | ifA | repeatA | passA
deriving DecidableEq

/-- `?field_type: field | format | if_ | repeat | pass_` together with
`format`, `if_` and `repeat`, which recurse into `field_type`:

  `format: [field_name ":"] "format" "(" [field_type (("," | WS | NEWLINE) field_type)*] [","] ")"`
  `if_: "if" expression ":" field_type ["else" ":" field_type]`
  `repeat: "repeat" expression ":" field_type` -/
def pFieldType : Nat → P FTAst
  | 0 => pFail
  | fuel + 1 =>
    pAlt (pMap (fun _ => FTAst.fieldA) (pField fuel))
      (pAlt
        (pMap (fun _ => FTAst.formatA)
          (pCat pOptName (pCat (pLitT "format") (pCat (pCharT '(')
            (pCat
              (pMaybe (pCat (pU (pFieldType fuel))
                (pStar
                  (pCat
                    (pAlt (pCharT ',') (pU (runSplits isWSChar)))
                    (pU (pFieldType fuel)))
                  fuel)))
              (pCat (pMaybe (pCharT ',')) (pCharT ')')))))))
        (pAlt
          (pMap (fun _ => FTAst.ifA)
            (pCat (pLitT "if") (pCat pExprTok (pCat (pCharT ':')
              (pCat (pU (pFieldType fuel))
                (pMaybe (pCat (pLitT "else") (pCat (pCharT ':')
                  (pU (pFieldType fuel))))))))))
          (pAlt
            (pMap (fun _ => FTAst.repeatA)
              (pCat (pLitT "repeat") (pCat pExprTok (pCat (pCharT ':')
                (pU (pFieldType fuel))))))
            (pMap (fun _ => FTAst.passA) pPassR))))

/-- `start: field_type` — the results of parsing a whole schema string:
complete parses (all-whitespace remainder) of the start rule. -/
def schemaResults (s : String) : List FTAst :=
  ((pFieldType (s.toList.length + 8) s.toList).filter
    (fun pr => pr.2.dropWhile isWSChar = [])).map Prod.fst

/-- C9: in the grammar the `pass` keyword is optional
(`pass_: ["pass"]`), so the empty string — as an empty field_type and
as a whole schema — parses successfully as a Pass node (and as nothing
else) rather than being rejected. -/
theorem empty_schema_parses_as_pass :
    schemaResults "" = [FTAst.passA] ∧
    (FTAst.passA, ([] : List Char)) ∈ pFieldType 1 [] := by
  constructor
  · decide
  · decide

/-- C6 (evaluating the grammar at the failing input): the `field_type`
rule of `format_parser.lark` has no `let` alternative, so the clause
`let x = 5` is rejected by the schema grammar — no complete parse
exists — although the release notes (0.6) document a `Let` field type
and the spec requires one; the parse semantics the spec gives `Let`
(evaluate the expression, bind the name, consume and emit no bits) hold
of the modelled `letBind` schema node. -/
theorem let_clause_not_in_grammar :
    schemaResults "let x = 5" = [] ∧
    parseFT 1 (.letBind "x" (.lit 5)) [] 0 [] =
      .ok 0 [("x", Value.vInt 5)] .unitV := by
  constructor
  · decide
  · rfl

/-! ## MutableBits and its API surface (claim C10)

Modelled from the spec: the `MutableBits` documentation lists the
in-place methods it adds and states that the generator-returning search
methods of `Bits` (for example `find_all`) are not available on it —
the underlying binary value could change while the generator is live —
and that `.to_bits().find_all()` is the supported route.  In this model
a `Bits` value is an immutable list, `to_bits` copies the current data,
and a generator's output is a pure function of that snapshot, so no
generator can observe a later mutation. -/

/-- Non-overlapping matches of `pat` in `b`, from low to high
(`find_all`). -/
def findAllAux (b pat : List Bool) : Nat → Nat → List Nat
  | 0, _ => []
  | fuel + 1, start =>
    match find b pat start false with
    | some i => i :: findAllAux b pat fuel (i + pat.length)
    | Option.none => []

/-- `Bits.find_all`: all non-overlapping match positions. -/
def findAllBits (b pat : List Bool) : List Nat :=
  findAllAux b pat (b.length + 1) 0

/-- The mutable bit builder: exclusive owner of its storage. -/
structure MutableBits where
  data : List Bool
deriving DecidableEq

/-- `MutableBits.to_bits`: an immutable snapshot of the current data. -/
def toBits (mb : MutableBits) : List Bool := mb.data

/-- The in-place operations of `MutableBits` (the documented new
methods). -/
inductive MutOp
  | appendOp (bs : List Bool)
  | prependOp (bs : List Bool)
  | insertOp (i : Nat) (bs : List Bool)
  | setOp (i : Nat) (v : Bool)
  | invertOp
  | reverseOp
  | byteSwapOp
  | rolOp (n : Nat)
  | rorOp (n : Nat)
  | clearOp
deriving DecidableEq

/-- Semantics of the in-place operations on the owned data. -/
def applyMut : MutOp → MutableBits → MutableBits
  | .appendOp bs, mb => ⟨mb.data ++ bs⟩
  | .prependOp bs, mb => ⟨bs ++ mb.data⟩
  | .insertOp i bs, mb => ⟨mb.data.take i ++ bs ++ mb.data.drop i⟩
  | .setOp i v, mb => ⟨mb.data.set i v⟩
  | .invertOp, mb => ⟨mb.data.map (fun b => !b)⟩
  | .reverseOp, mb => ⟨mb.data.reverse⟩
  | .byteSwapOp, mb => ⟨byteRev mb.data⟩
  | .rolOp n, mb =>
    ⟨mb.data.drop (n % mb.data.length) ++ mb.data.take (n % mb.data.length)⟩
  | .rorOp n, mb =>
    ⟨mb.data.drop (mb.data.length - n % mb.data.length) ++
      mb.data.take (mb.data.length - n % mb.data.length)⟩
  | .clearOp, mb => ⟨[]⟩

/-- The documented workaround: `mb.to_bits().find_all(pat)`. -/
def mbFindAll (mb : MutableBits) (pat : List Bool) : List Nat :=
  findAllBits (toBits mb) pat

/-- Methods shared by `Bits` and `MutableBits` (read operations of
spec §4.A). -/
def bitsCommonMethods : List String :=
  ["len", "bit_at", "slice", "to_bytes", "and", "or", "xor", "not",
   "find", "rfind", "count", "unpack", "to_mutable_bits"]

/-- The `Bits` API: the shared read methods plus the generator-returning
search methods. -/
def bitsMethods : List String :=
  bitsCommonMethods ++ ["find_all", "rfind_all", "chunks"]

/-- The `MutableBits` API: the shared read methods plus the documented
in-place methods and conversions — without the generator-returning
search methods. -/
def mutableBitsMethods : List String :=
  bitsCommonMethods ++
    ["append", "byte_swap", "clear", "insert", "invert", "prepend",
     "replace", "reverse", "rol", "ror", "set", "to_bits", "as_bits",
     "reserve", "capacity"]

/-- The generator-returning search methods of `Bits`. -/
def generatorSearchMethods : List String := ["find_all", "rfind_all"]

/-- C10: the generator-returning search methods of `Bits` are omitted
from the `MutableBits` API; they become available only through the
`to_bits()` conversion, whose result is an immutable snapshot, so a
generator's output is a pure function of the snapshot taken at
conversion time and no live generator can observe a mutation of the
builder's storage (here: the workaround computes `find_all` of the
snapshot, and mutating afterwards yields a new builder value, leaving
the snapshot — and hence the generator — untouched). -/
theorem mutablebits_omits_generator_methods :
    generatorSearchMethods.all
      (fun m => bitsMethods.contains m && !(mutableBitsMethods.contains m))
      = true ∧
    mutableBitsMethods.contains "to_bits" = true ∧
    (∀ (mb : MutableBits) (pat : List Bool) (op : MutOp),
      mbFindAll mb pat = findAllBits (toBits mb) pat ∧
      toBits (applyMut op mb) = (applyMut op mb).data) := by
  refine ⟨by decide, by decide, fun mb pat op => ⟨rfl, rfl⟩⟩

end Bitformat
